import Mathlib

/-!
Shallow embedding of the `IpSubnetCalculator` object
(`src/unnamed/part_000`, IpSubnetCalculator 1.1.0).

Modelling conventions:
* JS strings are modelled as `List Char` (`Str`).
* JS numbers reaching these functions are non-negative integers: they are
  modelled as `Nat` exactly (JS doubles are exact on the ranges involved);
  signed 32-bit coercions of the JS bitwise operators (ToInt32 and `>>> 0`)
  are modelled by reducing both operands modulo `2 ^ 32` before `&&&`,
  which yields the same 32-bit pattern, and by `% 2 ^ 32` after additions
  that JS truncates with `>>> 0`.
* A JS function that can throw or return `null` is modelled with
  `Option`; `none` covers both failure modes (callers of the composite
  operations distinguish only success from failure).
* The unbounded `while` loop of `calculate` is modelled with an explicit
  fuel counter that is provably sufficient (`ipEndNum + 2 - ipStartNum`
  bounds the number of loop entries, since the cursor strictly advances);
  the `for` loop of `calculateCIDRPrefix` runs at most 32 times and gets
  fuel 32.
-/

abbrev Str := List Char

namespace IpSubnetCalculator

/-- A value that may be passed where the source accepts "string or number". -/
inductive IpVal where
  | str : Str → IpVal
  | num : Nat → IpVal

/-- JS `parseInt(p, 10)` (equivalently unary `+p`) on an all-digit string. -/
def parseOctet (p : Str) : Nat :=
  p.foldl (fun a c => a * 10 + (c.toNat - 48)) 0

/-- Splitting a string at `'.'` characters, as `String.prototype.split('.')`. -/
def splitDots : Str → List Str
  | [] => [[]]
  | c :: rest =>
    if c = '.' then [] :: splitDots rest
    else
      match splitDots rest with
      | [] => [[c]]
      | h :: t => (c :: h) :: t

/-- One capture group of the source regex
`^([0-9]{1,3})\.([0-9]{1,3})\.([0-9]{1,3})\.([0-9]{1,3})$` together with the
`parseInt` range check `0 ≤ n ≤ 255` done by `isIp`. -/
def isOctet (p : Str) : Bool :=
  decide (1 ≤ p.length) && decide (p.length ≤ 3) &&
    p.all (fun c => c.isDigit) && decide (parseOctet p ≤ 255)

/-- Source `isIp`: the regex matches exactly when splitting at dots yields four
all-digit components of 1–3 characters; each must parse to at most 255. -/
def isIp (s : Str) : Bool :=
  let parts := splitDots s
  parts.length == 4 && parts.all isOctet

/-- Source `isDecimalIp`: integrality and non-negativity are given by the `Nat`
domain; the remaining check is the upper range bound. -/
def isDecimalIp (ipNum : Nat) : Bool :=
  decide (ipNum ≤ 4294967295)

/-- Source `toDecimal`: numeric input is passed through when in range, string
input is parsed after `isIp` validation; anything else throws (`none`). -/
def toDecimal : IpVal → Option Nat
  | .num ipNum => if isDecimalIp ipNum then some ipNum else none
  | .str ipString =>
    if isIp ipString then
      match splitDots ipString with
      | [d0, d1, d2, d3] =>
        some (((parseOctet d0 * 256 + parseOctet d1) * 256 + parseOctet d2) * 256
          + parseOctet d3)
      | _ => none
    else none

/-- Decimal rendering of a number below 1000, as JS number-to-string
conversion produces for the octet values (always `< 256`) fed to it. -/
def decChars3 (n : Nat) : Str :=
  if n < 10 then [Char.ofNat (48 + n)]
  else if n < 100 then [Char.ofNat (48 + n / 10), Char.ofNat (48 + n % 10)]
  else [Char.ofNat (48 + n / 100), Char.ofNat (48 + n / 10 % 10), Char.ofNat (48 + n % 10)]

/-- Source `toString` on a numeric argument: range check, then the three
divide-by-256 steps building `"a.b.c.d"` from the last octet backwards. -/
def toString (ipNum : Nat) : Option Str :=
  if isDecimalIp ipNum then
    let d0 := decChars3 (ipNum % 256)
    let n1 := ipNum / 256
    let d1 := decChars3 (n1 % 256) ++ '.' :: d0
    let n2 := n1 / 256
    let d2 := decChars3 (n2 % 256) ++ '.' :: d1
    let n3 := n2 / 256
    some (decChars3 (n3 % 256) ++ '.' :: d2)
  else none

/-- Source `getPrefixMask`: sum of `(1 << (32 - (i + 1))) >>> 0` for `i` below
`prefixSize`; the JS shift count is taken modulo 32 after an unsigned
32-bit coercion, i.e. it is `(31 - i) mod 32` as a Euclidean remainder. -/
def getPrefixMask (prefixSize : Int) : Nat :=
  (List.range prefixSize.toNat).foldl
    (fun (mask i : Nat) => mask + 2 ^ (((31 : Int) - (i : Int)) % 32).toNat) 0

/-- Source `getMask`: sum of `(1 << i) >>> 0` for `i` below `maskSize`; the JS
shift count is `i mod 32`. -/
def getMask (maskSize : Int) : Nat :=
  (List.range maskSize.toNat).foldl (fun mask i => mask + 2 ^ (i % 32)) 0

/-- The subnet data object returned by `getMaskRange`. -/
structure MaskRange where
  ipLow : Nat
  ipLowStr : Str
  ipHigh : Nat
  ipHighStr : Str
  prefixMask : Nat
  prefixMaskStr : Str
  prefixSize : Int
  invertedMask : Nat
  invertedMaskStr : Str
  invertedSize : Int
deriving DecidableEq, Repr

/-- Source `getMaskRange`: the bitmask arithmetic plus the four string renderings;
`none` models the `toString` throw that escapes when a mask value falls
outside the 32-bit range. -/
def getMaskRange (ipNum : Nat) (prefixSize : Int) : Option MaskRange :=
  let pMask := getPrefixMask prefixSize
  let lowMask := getMask (32 - prefixSize)
  let ipLow := ipNum % 4294967296 &&& pMask % 4294967296
  let ipHigh := (ipLow + lowMask) % 4294967296
  match toString ipLow, toString ipHigh, toString pMask, toString lowMask with
  | some lowS, some highS, some pmS, some invS =>
    some { ipLow := ipLow, ipLowStr := lowS,
           ipHigh := ipHigh, ipHighStr := highS,
           prefixMask := pMask, prefixMaskStr := pmS,
           prefixSize := prefixSize,
           invertedMask := lowMask, invertedMaskStr := invS,
           invertedSize := 32 - prefixSize }
  | _, _, _, _ => none

/-- The `for (prefixSize = 32; prefixSize >= 0; prefixSize--)` loop of
`getOptimalRange`, recursing on the loop counter; `optimalRange` is the
accumulator, and a failing candidate breaks, returning the accumulator. -/
def getOptimalAux (ipNum ipEndNum : Nat) : Nat → Option MaskRange → Option MaskRange
  | 0, optimalRange =>
    match getMaskRange ipNum 0 with
    | none => none
    | some maskRange =>
      if maskRange.ipLow = ipNum ∧ maskRange.ipHigh ≤ ipEndNum then some maskRange
      else optimalRange
  | ps + 1, optimalRange =>
    match getMaskRange ipNum ((ps + 1 : Nat) : Int) with
    | none => none
    | some maskRange =>
      if maskRange.ipLow = ipNum ∧ maskRange.ipHigh ≤ ipEndNum then
        getOptimalAux ipNum ipEndNum ps (some maskRange)
      else optimalRange

/-- Source `getOptimalRange`. -/
def getOptimalRange (ipNum ipEndNum : Nat) : Option MaskRange :=
  getOptimalAux ipNum ipEndNum 32 none

/-- Number of `getMaskRange` candidates the `getOptimalRange` loop
examines (instrumentation mirror of `getOptimalAux`). -/
def getOptimalSearchCount (ipNum ipEndNum : Nat) : Nat → Nat
  | 0 => 1
  | ps + 1 =>
    match getMaskRange ipNum ((ps + 1 : Nat) : Int) with
    | none => 1
    | some maskRange =>
      if maskRange.ipLow = ipNum ∧ maskRange.ipHigh ≤ ipEndNum then
        1 + getOptimalSearchCount ipNum ipEndNum ps
      else 1

/-- The `while (ipCurNum <= ipEndNum)` loop of `calculate`, with fuel. -/
def calcLoop (ipEndNum : Nat) : Nat → Nat → Option (List MaskRange)
  | _, 0 => none
  | ipCurNum, fuel + 1 =>
    if ipCurNum ≤ ipEndNum then
      match getOptimalRange ipCurNum ipEndNum with
      | none => none
      | some optimalRange =>
        match calcLoop ipEndNum (optimalRange.ipHigh + 1) fuel with
        | none => none
        | some rest => some (optimalRange :: rest)
    else some []

/-- Source `calculate`. -/
def calculate (ipStart ipEnd : IpVal) : Option (List MaskRange) :=
  match toDecimal ipStart, toDecimal ipEnd with
  | some ipStartNum, some ipEndNum =>
    if ipEndNum < ipStartNum then none
    else calcLoop ipEndNum ipStartNum (ipEndNum + 2 - ipStartNum)
  | _, _ => none

/-- Source `calculateSubnetMask`. -/
def calculateSubnetMask (ip : IpVal) (prefixSize : Int) : Option MaskRange :=
  match toDecimal ip with
  | some ipNum => getMaskRange ipNum prefixSize
  | none => none

/-- The `for (prefixSize = 0; prefixSize < 32; prefixSize++)` loop of
`calculateCIDRPrefix`; `pfx` is the `prefix` accumulator. Returns the
final `prefixSize`. -/
def cidrScan (subnetMaskNum : Nat) : Nat → Nat → Nat → Nat
  | _, ps, 0 => ps
  | pfx, ps, fuel + 1 =>
    if ps < 32 then
      let newPfx := (pfx + 1 <<< (32 - (ps + 1))) % 4294967296
      if subnetMaskNum % 4294967296 &&& newPfx = newPfx then
        cidrScan subnetMaskNum newPfx (ps + 1) fuel
      else ps
    else ps

/-- Source `calculateCIDRPrefix`. -/
def calculateCIDRPrefix (ip subnetMask : IpVal) : Option MaskRange :=
  match toDecimal ip, toDecimal subnetMask with
  | some ipNum, some subnetMaskNum =>
    getMaskRange ipNum ((cidrScan subnetMaskNum 0 0 32 : Nat) : Int)
  | _, _ => none

/-- The success condition tested inside `getOptimalRange` for a candidate
prefix size, phrased as the claims phrase it. -/
def BlockFits (ipNum ipEndNum ps : Nat) : Prop :=
  ∃ r, getMaskRange ipNum (ps : Int) = some r ∧ r.ipLow = ipNum ∧ r.ipHigh ≤ ipEndNum

/-- Canonical dotted-decimal rendering of four octets (the shape
`toString` produces); used to state the amended round-trip claim. -/
def canonicalIp (a b c d : Nat) : Str :=
  decChars3 a ++ '.' :: (decChars3 b ++ '.' :: (decChars3 c ++ '.' :: decChars3 d))

/-- Arithmetic form of the fitting condition tested by `getOptimalRange`. -/
def CondP (ipNum ipEndNum ps : Nat) : Prop :=
  ipNum % 2 ^ (32 - ps) = 0 ∧ ipNum + (2 ^ (32 - ps) - 1) ≤ ipEndNum

instance (x e p : Nat) : Decidable (CondP x e p) := by
  unfold CondP
  exact inferInstance

/-- The shape of the block list `calculate` builds: each block starts at
the cursor, ends no later than `ipEndNum`, and the next cursor is the
block's `ipHigh + 1`; the loop stops exactly at `ipEndNum + 1`. -/
def ChainFrom (ipEndNum : Nat) : Nat → List MaskRange → Prop
  | cur, [] => cur = ipEndNum + 1
  | cur, r :: rest =>
    r.ipLow = cur ∧ cur ≤ r.ipHigh ∧ r.ipHigh ≤ ipEndNum ∧
      ChainFrom ipEndNum (r.ipHigh + 1) rest

/-- Largest `j ≤ 32` with `2 ^ j` dividing `cur` (alignment headroom). -/
def valB (cur : Nat) : Nat := Nat.findGreatest (fun j => 2 ^ j ∣ cur) 32

/-- Largest `j ≤ 32` with `2 ^ j ≤ R` (size headroom of a remaining range). -/
def logB (R : Nat) : Nat := Nat.findGreatest (fun j => 2 ^ j ≤ R) 32

/-- Containment of the `p`-bit prefix mask in a candidate subnet mask. -/
def ContV (mn p : Nat) : Prop := mn &&& (2 ^ 32 - 2 ^ (32 - p)) = 2 ^ 32 - 2 ^ (32 - p)

instance (mn p : Nat) : Decidable (ContV mn p) := by
  unfold ContV
  exact inferInstance

theorem pmask_fin : ∀ p : Fin 33, getPrefixMask ((p : Nat) : Int) = 2 ^ 32 - 2 ^ (32 - (p : Nat)) := by decide

theorem lmask_fin : ∀ k : Fin 33, getMask ((k : Nat) : Int) = 2 ^ (k : Nat) - 1 := by decide

theorem masks_compl_fin : ∀ p : Fin 33,
    (2 ^ 32 - 2 ^ (32 - (p : Nat))) ||| (2 ^ (32 - (p : Nat)) - 1) = 4294967295 ∧
    (2 ^ 32 - 2 ^ (32 - (p : Nat))) &&& (2 ^ (32 - (p : Nat)) - 1) = 0 := by decide

theorem land_high_eq (x k : Nat) (hx : x < 2 ^ 32) (hk : k ≤ 32) :
    x &&& (2 ^ 32 - 2 ^ k) = x - x % 2 ^ k := by
  have hM : 2 ^ 32 - 2 ^ k = (2 ^ (32 - k) - 1) <<< k := by
    rw [Nat.shiftLeft_eq, Nat.sub_mul, one_mul, ← pow_add]
    congr 2
    omega
  have hR : x - x % 2 ^ k = x >>> k <<< k := by
    rw [Nat.shiftLeft_eq, Nat.shiftRight_eq_div_pow]
    have h1 := Nat.mod_add_div' x (2 ^ k)
    omega
  rw [hM, hR]
  apply Nat.eq_of_testBit_eq
  intro i
  simp only [Nat.testBit_and, Nat.testBit_shiftLeft, Nat.testBit_shiftRight,
    Nat.testBit_two_pow_sub_one]
  by_cases hik : k ≤ i
  · by_cases hi32 : i < 32
    · have : k + (i - k) = i := by omega
      simp [hik, this, hi32]
      intro h
      omega
    · have hxi : x.testBit i = false := by
        apply Nat.testBit_lt_two_pow
        calc x < 2 ^ 32 := hx
        _ ≤ 2 ^ i := Nat.pow_le_pow_right (by norm_num) (by omega)
      have : k + (i - k) = i := by omega
      simp [hxi, this]
  · simp [hik]

theorem toString_isSome (n : Nat) (h : n ≤ 4294967295) : ∃ s, toString n = some s := by
  unfold toString
  rw [if_pos (by unfold isDecimalIp; exact decide_eq_true h)]
  exact ⟨_, rfl⟩

theorem getPrefixMask_le32 (p : Nat) (hp : p ≤ 32) :
    getPrefixMask (p : Int) = 2 ^ 32 - 2 ^ (32 - p) := pmask_fin ⟨p, by omega⟩

theorem getMask_le32 (k : Nat) (hk : k ≤ 32) :
    getMask (k : Int) = 2 ^ k - 1 := lmask_fin ⟨k, by omega⟩

theorem two_pow_32_eq : (2 : Nat) ^ 32 = 4294967296 := by norm_num

theorem getMaskRange_some (x p : Nat) (hx : x ≤ 4294967295) (hp : p ≤ 32) :
    ∃ r, getMaskRange x (p : Int) = some r ∧
      r.ipLow = x - x % 2 ^ (32 - p) ∧
      r.ipHigh = x - x % 2 ^ (32 - p) + (2 ^ (32 - p) - 1) ∧
      r.prefixMask = 2 ^ 32 - 2 ^ (32 - p) ∧
      r.invertedMask = 2 ^ (32 - p) - 1 ∧
      r.prefixSize = (p : Int) ∧
      r.invertedSize = 32 - (p : Int) := by
  have hpow := two_pow_32_eq
  have hx' : x < 2 ^ 32 := by omega
  have hpm : getPrefixMask (p : Int) = 2 ^ 32 - 2 ^ (32 - p) := getPrefixMask_le32 p hp
  have hlm : getMask ((32 : Int) - (p : Int)) = 2 ^ (32 - p) - 1 := by
    have h1 : ((32 : Int) - (p : Int)) = ((32 - p : Nat) : Int) := by omega
    rw [h1, getMask_le32 (32 - p) (by omega)]
  have hksub : (2 : Nat) ^ (32 - p) ≤ 2 ^ 32 := Nat.pow_le_pow_right (by norm_num) (by omega)
  have hkpos : (1 : Nat) ≤ 2 ^ (32 - p) := Nat.one_le_two_pow
  have hmodle : x % 2 ^ (32 - p) ≤ x := Nat.mod_le x _
  have hxmod : x % 4294967296 = x := Nat.mod_eq_of_lt (by omega)
  have hpmmod : (2 ^ 32 - 2 ^ (32 - p)) % 4294967296 = 2 ^ 32 - 2 ^ (32 - p) :=
    Nat.mod_eq_of_lt (by omega)
  have hlow : x % 4294967296 &&& (2 ^ 32 - 2 ^ (32 - p)) % 4294967296
      = x - x % 2 ^ (32 - p) := by
    rw [hxmod, hpmmod, land_high_eq x (32 - p) hx' (by omega)]
  have hlowle : x - x % 2 ^ (32 - p) ≤ 2 ^ 32 - 2 ^ (32 - p) := by
    rw [← hlow, hxmod, hpmmod]
    exact Nat.and_le_right
  have hhighmod : (x - x % 2 ^ (32 - p) + (2 ^ (32 - p) - 1)) % 4294967296
      = x - x % 2 ^ (32 - p) + (2 ^ (32 - p) - 1) :=
    Nat.mod_eq_of_lt (by omega)
  obtain ⟨s1, hs1⟩ := toString_isSome (x - x % 2 ^ (32 - p)) (by omega)
  obtain ⟨s2, hs2⟩ := toString_isSome (x - x % 2 ^ (32 - p) + (2 ^ (32 - p) - 1)) (by omega)
  obtain ⟨s3, hs3⟩ := toString_isSome (2 ^ 32 - 2 ^ (32 - p)) (by omega)
  obtain ⟨s4, hs4⟩ := toString_isSome (2 ^ (32 - p) - 1) (by omega)
  refine ⟨⟨x - x % 2 ^ (32 - p), s1, x - x % 2 ^ (32 - p) + (2 ^ (32 - p) - 1), s2,
    2 ^ 32 - 2 ^ (32 - p), s3, (p : Int), 2 ^ (32 - p) - 1, s4, 32 - (p : Int)⟩,
    ?_, rfl, rfl, rfl, rfl, rfl, rfl⟩
  unfold getMaskRange
  simp only [hpm, hlm, hlow, hhighmod, hs1, hs2, hs3, hs4]

set_option maxRecDepth 4000 in
theorem octet_facts : ∀ v : Fin 256,
    ('.' ∉ decChars3 (v : Nat)) ∧ isOctet (decChars3 (v : Nat)) = true ∧
      parseOctet (decChars3 (v : Nat)) = (v : Nat) := by decide

theorem foldl_add_init_le (f : Nat → Nat) :
    ∀ (l : List Nat) (c : Nat), c ≤ l.foldl (fun m i => m + f i) c := by
  intro l
  induction l with
  | nil => intro c; exact Nat.le_refl c
  | cons a t ih =>
    intro c
    calc c ≤ c + f a := Nat.le_add_right c (f a)
    _ ≤ t.foldl (fun m i => m + f i) (c + f a) := ih (c + f a)

theorem getPrefixMask_gt32 (p : Int) (hp : 32 < p) : 4294967295 < getPrefixMask p := by
  unfold getPrefixMask
  have h33 : p.toNat = 33 + (p.toNat - 33) := by omega
  rw [h33, List.range_add, List.foldl_append]
  have hbase : (List.range 33).foldl
      (fun (mask i : Nat) => mask + 2 ^ (((31 : Int) - (i : Int)) % 32).toNat) 0
      = 6442450943 := by decide
  rw [hbase]
  calc (4294967295 : Nat) < 6442450943 := by norm_num
  _ ≤ _ := foldl_add_init_le _ _ _

theorem getMask_gt32 (k : Int) (hk : 33 ≤ k) : 4294967295 < getMask k := by
  unfold getMask
  have h33 : k.toNat = 33 + (k.toNat - 33) := by omega
  rw [h33, List.range_add, List.foldl_append]
  have hbase : (List.range 33).foldl (fun mask i => mask + 2 ^ (i % 32)) 0 = 4294967296 := by
    decide
  rw [hbase]
  calc (4294967295 : Nat) < 4294967296 := by norm_num
  _ ≤ _ := foldl_add_init_le _ _ _

theorem toString_none (n : Nat) (h : 4294967295 < n) : toString n = none := by
  unfold toString
  rw [if_neg]
  unfold isDecimalIp
  simp
  omega

theorem getMaskRange_none_hi (n : Nat) (p : Int) (hp : 32 < p) : getMaskRange n p = none := by
  have h := toString_none (getPrefixMask p) (getPrefixMask_gt32 p hp)
  unfold getMaskRange
  simp only []
  split <;> simp_all

theorem getMaskRange_none_lo (n : Nat) (p : Int) (hp : p < 0) : getMaskRange n p = none := by
  have h := toString_none (getMask (32 - p)) (getMask_gt32 (32 - p) (by omega))
  unfold getMaskRange
  simp only []
  split <;> simp_all

theorem condP_32 (x e : Nat) (hxe : x ≤ e) : CondP x e 32 := by
  unfold CondP
  norm_num
  exact ⟨Nat.mod_one x, hxe⟩

theorem cond_iff (x e p : Nat) (hx : x ≤ 4294967295) (hp : p ≤ 32) (r : MaskRange)
    (hr : getMaskRange x (p : Int) = some r) :
    (r.ipLow = x ∧ r.ipHigh ≤ e) ↔ CondP x e p := by
  obtain ⟨r', hr', hlow, hhigh, _⟩ := getMaskRange_some x p hx hp
  rw [hr] at hr'
  injection hr' with hrr
  subst hrr
  have hmodle : x % 2 ^ (32 - p) ≤ x := Nat.mod_le x _
  have hkpos : (1 : Nat) ≤ 2 ^ (32 - p) := Nat.one_le_two_pow
  unfold CondP
  rw [hlow, hhigh]
  omega

theorem getOptimalAux_break (x e : Nat) (hx : x ≤ 4294967295) (ps : Nat) (hps : ps ≤ 32)
    (hno : ¬ CondP x e ps) (best : Option MaskRange) : getOptimalAux x e ps best = best := by
  obtain ⟨r, hr, _⟩ := getMaskRange_some x ps hx hps
  have hcond : ¬ (r.ipLow = x ∧ r.ipHigh ≤ e) :=
    fun hc => hno ((cond_iff x e ps hx hps r hr).mp hc)
  cases ps with
  | zero =>
    unfold getOptimalAux
    rw [show getMaskRange x 0 = some r from hr]
    simp only [if_neg hcond]
  | succ q =>
    unfold getOptimalAux
    rw [hr]
    simp only [if_neg hcond]

theorem condP_mono (x e p q : Nat) (h : CondP x e p) (hpq : p ≤ q) : CondP x e q := by
  obtain ⟨h1, h2⟩ := h
  have hd : (2 : Nat) ^ (32 - q) ∣ 2 ^ (32 - p) := pow_dvd_pow 2 (by omega)
  constructor
  · have hdx : (2 : Nat) ^ (32 - p) ∣ x := Nat.dvd_of_mod_eq_zero h1
    exact Nat.mod_eq_zero_of_dvd (dvd_trans hd hdx)
  · have hle := Nat.pow_le_pow_right (show 0 < 2 by norm_num)
      (show 32 - q ≤ 32 - p by omega)
    omega

theorem getOptimalAux_eq (x e : Nat) (hx : x ≤ 4294967295) (m : Nat)
    (hmfit : CondP x e m) (hmin : ∀ q, q < m → ¬ CondP x e q) :
    ∀ ps, m ≤ ps → ps ≤ 32 → ∀ best,
      getOptimalAux x e ps best = getMaskRange x (m : Int) := by
  intro ps
  induction ps with
  | zero =>
    intro h0 _ best
    have hm0 : m = 0 := by omega
    subst hm0
    obtain ⟨r, hr, _⟩ := getMaskRange_some x 0 hx (by norm_num)
    have hcond : r.ipLow = x ∧ r.ipHigh ≤ e :=
      (cond_iff x e 0 hx (by norm_num) r hr).mpr hmfit
    unfold getOptimalAux
    rw [show getMaskRange x 0 = some r from hr]
    show (if r.ipLow = x ∧ r.ipHigh ≤ e then some r else best) = getMaskRange x ((0 : Nat) : Int)
    rw [if_pos hcond]
    exact hr.symm
  | succ q ih =>
    intro hmq h32 best
    obtain ⟨r, hr, _⟩ := getMaskRange_some x (q + 1) hx h32
    by_cases hq : m ≤ q
    · have hcond : CondP x e (q + 1) := condP_mono x e m (q + 1) hmfit (by omega)
      have hc2 : r.ipLow = x ∧ r.ipHigh ≤ e :=
        (cond_iff x e (q + 1) hx h32 r hr).mpr hcond
      unfold getOptimalAux
      rw [hr]
      show (if r.ipLow = x ∧ r.ipHigh ≤ e then getOptimalAux x e q (some r) else best)
        = getMaskRange x (m : Int)
      rw [if_pos hc2]
      exact ih hq (by omega) (some r)
    · have hm : m = q + 1 := by omega
      have hc2 : r.ipLow = x ∧ r.ipHigh ≤ e :=
        (cond_iff x e (q + 1) hx h32 r hr).mpr (hm ▸ hmfit)
      unfold getOptimalAux
      rw [hr]
      show (if r.ipLow = x ∧ r.ipHigh ≤ e then getOptimalAux x e q (some r) else best)
        = getMaskRange x (m : Int)
      rw [if_pos hc2]
      rw [getOptimalAux_break x e hx q (by omega) (hmin q (by omega)) (some r)]
      rw [hm]
      exact hr.symm

theorem getOptimalRange_eq (x e : Nat) (hxe : x ≤ e) (he : e ≤ 4294967295) :
    ∃ m, m ≤ 32 ∧ CondP x e m ∧ (∀ q, q < m → ¬ CondP x e q) ∧
      getOptimalRange x e = getMaskRange x (m : Int) := by
  have hx : x ≤ 4294967295 := le_trans hxe he
  have hex : ∃ p, CondP x e p := ⟨32, condP_32 x e hxe⟩
  have hfle : Nat.find hex ≤ 32 := Nat.find_le (condP_32 x e hxe)
  refine ⟨Nat.find hex, hfle, Nat.find_spec hex, fun q hq => Nat.find_min hex hq, ?_⟩
  exact getOptimalAux_eq x e hx _ (Nat.find_spec hex)
    (fun q hq => Nat.find_min hex hq) 32 hfle le_rfl none

theorem calcLoop_spec (e : Nat) (he : e ≤ 4294967295) :
    ∀ fuel cur, cur ≤ e + 1 → e + 2 - cur ≤ fuel →
      ∃ l, calcLoop e cur fuel = some l ∧ ChainFrom e cur l := by
  intro fuel
  induction fuel with
  | zero =>
    intro cur h1 h2
    omega
  | succ f ih =>
    intro cur h1 h2
    by_cases hc : cur ≤ e
    · obtain ⟨m, hm32, hfit, hmin, heq⟩ := getOptimalRange_eq cur e hc he
      obtain ⟨r, hr, hlow, hhigh, _⟩ := getMaskRange_some cur m (le_trans hc he) hm32
      have hz := hfit.1
      have hkpos : (1 : Nat) ≤ 2 ^ (32 - m) := Nat.one_le_two_pow
      have hlow' : r.ipLow = cur := by rw [hlow, hz]; omega
      have hhigh' : r.ipHigh = cur + (2 ^ (32 - m) - 1) := by rw [hhigh, hz]; omega
      have hhighle : r.ipHigh ≤ e := by rw [hhigh']; exact hfit.2
      have hcurle : cur ≤ r.ipHigh := by rw [hhigh']; omega
      obtain ⟨rest, hrest, hchain⟩ := ih (r.ipHigh + 1) (by omega) (by omega)
      refine ⟨r :: rest, ?_, hlow', hcurle, hhighle, hchain⟩
      unfold calcLoop
      rw [if_pos hc, heq, hr]
      show (match calcLoop e (r.ipHigh + 1) f with
        | none => none
        | some rest => some (r :: rest)) = some (r :: rest)
      rw [hrest]
    · have hcur : cur = e + 1 := by omega
      refine ⟨[], ?_, hcur⟩
      unfold calcLoop
      rw [if_neg (by omega)]

theorem chainFrom_mem (e : Nat) : ∀ (l : List MaskRange) (cur : Nat), ChainFrom e cur l →
    ∀ r ∈ l, cur ≤ r.ipLow ∧ r.ipLow ≤ r.ipHigh ∧ r.ipHigh ≤ e := by
  intro l
  induction l with
  | nil => simp
  | cons r t ih =>
    intro cur hch s hs
    obtain ⟨hlow, hcur, hhe, hrest⟩ := hch
    rcases List.mem_cons.mp hs with rfl | hs2
    · exact ⟨le_of_eq hlow.symm, by omega, hhe⟩
    · have h3 := ih (r.ipHigh + 1) hrest s hs2
      exact ⟨by omega, h3.2.1, h3.2.2⟩

theorem chainFrom_chain (e : Nat) : ∀ (l : List MaskRange) (cur : Nat), ChainFrom e cur l →
    List.Chain' (fun r s => s.ipLow = r.ipHigh + 1) l := by
  intro l
  induction l with
  | nil => intro cur _; exact List.chain'_nil
  | cons r t ih =>
    intro cur hch
    obtain ⟨hlow, hcur, hhe, hrest⟩ := hch
    cases t with
    | nil => exact List.chain'_singleton r
    | cons s t2 =>
      rw [List.chain'_cons]
      exact ⟨hrest.1, ih (r.ipHigh + 1) hrest⟩

theorem chainFrom_pairwise (e : Nat) : ∀ (l : List MaskRange) (cur : Nat),
    ChainFrom e cur l → List.Pairwise (fun r s => r.ipHigh < s.ipLow) l := by
  intro l
  induction l with
  | nil => intro cur _; exact List.Pairwise.nil
  | cons r t ih =>
    intro cur hch
    obtain ⟨hlow, hcur, hhe, hrest⟩ := hch
    refine List.Pairwise.cons ?_ (ih (r.ipHigh + 1) hrest)
    intro s hs
    have h3 := chainFrom_mem e t (r.ipHigh + 1) hrest s hs
    omega

theorem chainFrom_union (e : Nat) : ∀ (l : List MaskRange) (cur : Nat), ChainFrom e cur l →
    ∀ y, (cur ≤ y ∧ y ≤ e) ↔ ∃ r ∈ l, r.ipLow ≤ y ∧ y ≤ r.ipHigh := by
  intro l
  induction l with
  | nil =>
    intro cur hch y
    simp only [List.not_mem_nil, false_and, exists_false, iff_false]
    unfold ChainFrom at hch
    omega
  | cons r t ih =>
    intro cur hch y
    obtain ⟨hlow, hcur, hhe, hrest⟩ := hch
    constructor
    · rintro ⟨hy1, hy2⟩
      by_cases hy3 : y ≤ r.ipHigh
      · exact ⟨r, List.mem_cons_self r t, by omega, hy3⟩
      · obtain ⟨s, hs, hs2⟩ := ((ih (r.ipHigh + 1) hrest y).mp (by omega))
        exact ⟨s, List.mem_cons_of_mem r hs, hs2⟩
    · rintro ⟨s, hs, hs1, hs2⟩
      rcases List.mem_cons.mp hs with rfl | hs3
      · omega
      · have h4 := (ih (r.ipHigh + 1) hrest y).mpr ⟨s, hs3, hs1, hs2⟩
        omega

theorem chainFrom_ne_nil (e : Nat) (l : List MaskRange) (cur : Nat)
    (hch : ChainFrom e cur l) (hc : cur ≤ e) : l ≠ [] := by
  intro hl
  subst hl
  unfold ChainFrom at hch
  omega

theorem valB_dvd (cur : Nat) : 2 ^ valB cur ∣ cur :=
  Nat.findGreatest_spec (P := fun j => 2 ^ j ∣ cur) (m := 0) (by omega) (by simp)

theorem valB_le (cur : Nat) : valB cur ≤ 32 := Nat.findGreatest_le 32

theorem le_valB (cur j : Nat) (hj : j ≤ 32) (hd : 2 ^ j ∣ cur) : j ≤ valB cur :=
  Nat.le_findGreatest hj hd

theorem valB_max (cur j : Nat) (hj : valB cur < j) (hj32 : j ≤ 32) : ¬ 2 ^ j ∣ cur :=
  Nat.findGreatest_is_greatest (P := fun i => 2 ^ i ∣ cur) hj hj32

theorem logB_le (R : Nat) (hR : 1 ≤ R) : 2 ^ logB R ≤ R :=
  Nat.findGreatest_spec (P := fun j => 2 ^ j ≤ R) (m := 0) (by omega) (by simpa using hR)

theorem logB_le32 (R : Nat) : logB R ≤ 32 := Nat.findGreatest_le 32

theorem le_logB (R j : Nat) (hj : j ≤ 32) (hd : 2 ^ j ≤ R) : j ≤ logB R :=
  Nat.le_findGreatest hj hd

theorem logB_max (R j : Nat) (hj : logB R < j) (hj32 : j ≤ 32) : ¬ 2 ^ j ≤ R :=
  Nat.findGreatest_is_greatest (P := fun i => 2 ^ i ≤ R) hj hj32

theorem logB_mono (R S : Nat) (h : R ≤ S) : logB R ≤ logB S :=
  Nat.findGreatest_mono_left (fun _ hj => le_trans hj h) 32

theorem block_k_eq (cur e m : Nat) (hc : cur ≤ e) (hm32 : m ≤ 32)
    (hfit : CondP cur e m) (hmin : ∀ q, q < m → ¬ CondP cur e q) :
    32 - m = min (valB cur) (logB (e + 1 - cur)) := by
  obtain ⟨h1, h2⟩ := hfit
  have hkpos : (1 : Nat) ≤ 2 ^ (32 - m) := Nat.one_le_two_pow
  have hkv : 32 - m ≤ valB cur :=
    le_valB cur (32 - m) (by omega) (Nat.dvd_of_mod_eq_zero h1)
  have hkL : 32 - m ≤ logB (e + 1 - cur) :=
    le_logB (e + 1 - cur) (32 - m) (by omega) (by omega)
  have hj32 : min (valB cur) (logB (e + 1 - cur)) ≤ 32 :=
    le_trans (Nat.min_le_left _ _) (valB_le cur)
  have hjk : min (valB cur) (logB (e + 1 - cur)) ≤ 32 - m := by
    by_contra hlt
    push_neg at hlt
    set j := min (valB cur) (logB (e + 1 - cur)) with hj
    have hfitj : CondP cur e (32 - j) := by
      constructor
      · apply Nat.mod_eq_zero_of_dvd
        have hsub : 32 - (32 - j) = j := by omega
        rw [hsub]
        exact dvd_trans (pow_dvd_pow 2 (Nat.min_le_left _ _)) (valB_dvd cur)
      · have hsub : 32 - (32 - j) = j := by omega
        rw [hsub]
        have hle : 2 ^ j ≤ e + 1 - cur :=
          le_trans (Nat.pow_le_pow_right (by norm_num) (Nat.min_le_right _ _))
            (logB_le (e + 1 - cur) (by omega))
        omega
    have := hmin (32 - j) (by omega)
    exact this hfitj
  omega

theorem calcLoop_zero_none (e cur : Nat) : calcLoop e cur 0 = none := rfl

theorem calcLoop_past_end (e cur : Nat) (f : Nat) (l : List MaskRange) (hc : e < cur)
    (h : calcLoop e cur f = some l) : l = [] := by
  cases f with
  | zero => exact absurd h (by rw [calcLoop_zero_none]; simp)
  | succ f2 =>
    unfold calcLoop at h
    rw [if_neg (by omega)] at h
    injection h with h2
    exact h2.symm

theorem calcLoop_step (e cur : Nat) (f : Nat) (r : MaskRange) (hc : cur ≤ e)
    (hopt : getOptimalRange cur e = some r) (l : List MaskRange)
    (hsome : calcLoop e cur (f + 1) = some l) :
    ∃ rest, calcLoop e (r.ipHigh + 1) f = some rest ∧ l = r :: rest := by
  unfold calcLoop at hsome
  rw [if_pos hc, hopt] at hsome
  replace hsome : (match calcLoop e (r.ipHigh + 1) f with
    | none => none
    | some rest => some (r :: rest)) = some l := hsome
  cases hin : calcLoop e (r.ipHigh + 1) f with
  | none =>
    rw [hin] at hsome
    exact absurd hsome (by simp)
  | some rest =>
    rw [hin] at hsome
    refine ⟨rest, rfl, ?_⟩
    simp only [Option.some.injEq] at hsome
    exact hsome.symm

theorem calcLoop_len (e : Nat) (he : e ≤ 4294967295) :
    ∀ R cur fuel l, cur ≤ e → e + 1 - cur = R →
      calcLoop e cur fuel = some l →
      l.length ≤ (logB R - valB cur) + logB R + 1 := by
  intro R
  induction R using Nat.strong_induction_on with
  | _ R ih =>
    intro cur fuel l hc hR hsome
    cases fuel with
    | zero => exact absurd hsome (by rw [calcLoop_zero_none]; simp)
    | succ f =>
      obtain ⟨m, hm32, hfit, hmin, heq⟩ := getOptimalRange_eq cur e hc he
      obtain ⟨r, hr, hlow, hhigh, _⟩ := getMaskRange_some cur m (le_trans hc he) hm32
      have hz := hfit.1
      have hkpos : (1 : Nat) ≤ 2 ^ (32 - m) := Nat.one_le_two_pow
      have hhigh2 : r.ipHigh = cur + (2 ^ (32 - m) - 1) := by rw [hhigh, hz]; omega
      obtain ⟨rest, hrest, hl⟩ :=
        calcLoop_step e cur f r hc (heq.trans hr) l hsome
      subst hl
      have hk := block_k_eq cur e m hc hm32 hfit hmin
      rw [hR] at hk
      have hR1 : 1 ≤ R := by omega
      have hL2 : 2 ^ logB R ≤ R := by rw [← hR]; exact logB_le _ (by omega)
      have hv1 : 2 ^ valB cur ∣ cur := valB_dvd cur
      have hL32 : logB R ≤ 32 := logB_le32 R
      have hv32 : valB cur ≤ 32 := valB_le cur
      by_cases hend : e < r.ipHigh + 1
      · have hrest2 : rest = [] := calcLoop_past_end e (r.ipHigh + 1) f rest hend hrest
        subst hrest2
        simp only [List.length_cons, List.length_nil]
        omega
      · push_neg at hend
        have hR2 : e + 1 - (r.ipHigh + 1) = R - 2 ^ (32 - m) := by
          rw [hhigh2]
          omega
        have hRlt : R - 2 ^ (32 - m) < R := by omega
        have hih := ih (R - 2 ^ (32 - m)) hRlt (r.ipHigh + 1) f rest hend hR2 hrest
        have hR2pos : 1 ≤ R - 2 ^ (32 - m) := by
          rw [← hR2]
          omega
        have hRbig : R < 2 ^ (logB R + 1) := by
          by_cases h32 : logB R = 32
          · have hb1 : R ≤ 4294967296 := by omega
            have hb2 : (2 : Nat) ^ (32 + 1) = 8589934592 := by norm_num
            rw [h32, hb2]
            omega
          · have := logB_max R (logB R + 1) (by omega) (by omega)
            omega
        simp only [List.length_cons]
        rcases Nat.lt_or_ge (valB cur) (logB R) with hcase | hcase
        · -- alignment-limited step: the chosen size is the 2-adic headroom
          have hkv : 32 - m = valB cur := by omega
          rw [hkv] at hhigh2 hR2 hRlt hih hR2pos
          set w := valB cur with hw
          have hnd : ¬ 2 ^ (w + 1) ∣ cur :=
            valB_max cur (w + 1) (by omega) (by omega)
          obtain ⟨t, ht⟩ := hv1
          have hodd : t % 2 = 1 := by
            rcases Nat.mod_two_eq_zero_or_one t with h0 | h1
            · exfalso
              apply hnd
              refine ⟨t / 2, ?_⟩
              have ht0 : t = 2 * (t / 2) := by omega
              rw [ht, pow_succ]
              conv_lhs => rw [ht0]
              ring
            · exact h1
          have hsum : r.ipHigh + 1 = 2 ^ w * (t + 1) := by
            have h1 : r.ipHigh + 1 = cur + 2 ^ w := by
              rw [hhigh2]
              omega
            rw [h1, ht]
            ring
          have hdvd2 : 2 ^ (w + 1) ∣ r.ipHigh + 1 := by
            refine ⟨(t + 1) / 2, ?_⟩
            have ht1 : t + 1 = 2 * ((t + 1) / 2) := by omega
            rw [hsum, pow_succ]
            conv_lhs => rw [ht1]
            ring
          have hv2 : w + 1 ≤ valB (r.ipHigh + 1) :=
            le_valB _ _ (by omega) hdvd2
          have hL3 : logB (R - 2 ^ w) ≤ logB R := logB_mono _ _ (by omega)
          have hL4 : logB R - 1 ≤ logB (R - 2 ^ w) := by
            apply le_logB _ _ (by omega)
            have hple : (2 : Nat) ^ w ≤ 2 ^ (logB R - 1) :=
              Nat.pow_le_pow_right (by norm_num) (by omega)
            have hps : (2 : Nat) ^ (logB R - 1 + 1) = 2 ^ (logB R - 1) * 2 := pow_succ 2 _
            have heq2 : logB R - 1 + 1 = logB R := by omega
            rw [heq2] at hps
            omega
          omega
        · -- bound-limited step: the chosen size is the remaining-length headroom
          have hkL : 32 - m = logB R := by omega
          rw [hkL] at hhigh2 hR2 hRlt hih hR2pos
          have hps : (2 : Nat) ^ (logB R + 1) = 2 ^ (logB R) * 2 := pow_succ 2 _
          have hRsm : R - 2 ^ logB R < 2 ^ logB R := by omega
          have hL5 : logB (R - 2 ^ logB R) < logB R := by
            by_contra hge
            push_neg at hge
            have h6 : 2 ^ (logB R) ≤ 2 ^ (logB (R - 2 ^ logB R)) :=
              Nat.pow_le_pow_right (by norm_num) hge
            have h7 := logB_le (R - 2 ^ logB R) hR2pos
            omega
          have hdvdc : 2 ^ logB R ∣ cur :=
            dvd_trans (pow_dvd_pow 2 (by omega)) hv1
          have hdvd2 : 2 ^ logB R ∣ r.ipHigh + 1 := by
            have h1 : r.ipHigh + 1 = cur + 2 ^ logB R := by
              rw [hhigh2]
              omega
            rw [h1]
            exact Nat.dvd_add hdvdc dvd_rfl
          have hv2 : logB R ≤ valB (r.ipHigh + 1) :=
            le_valB _ _ (by omega) hdvd2
          omega

theorem contV_zero (mn : Nat) : ContV mn 0 := by
  unfold ContV
  simp

theorem pmask_succ_val : ∀ p : Fin 32,
    2 ^ 32 - 2 ^ (32 - (p : Nat)) + 2 ^ (31 - (p : Nat)) = 2 ^ 32 - 2 ^ (31 - (p : Nat)) := by
  decide

theorem pmask_and_chain : ∀ p : Fin 32,
    (2 ^ 32 - 2 ^ (32 - ((p : Nat) + 1))) &&& (2 ^ 32 - 2 ^ (32 - (p : Nat)))
      = 2 ^ 32 - 2 ^ (32 - (p : Nat)) := by
  decide

theorem contV_down (mn p : Nat) (hp : p ≤ 31) (h : ContV mn (p + 1)) : ContV mn p := by
  unfold ContV at h ⊢
  have hch := pmask_and_chain ⟨p, by omega⟩
  calc mn &&& (2 ^ 32 - 2 ^ (32 - p))
      = mn &&& ((2 ^ 32 - 2 ^ (32 - (p + 1))) &&& (2 ^ 32 - 2 ^ (32 - p))) := by rw [hch]
  _ = (mn &&& (2 ^ 32 - 2 ^ (32 - (p + 1)))) &&& (2 ^ 32 - 2 ^ (32 - p)) :=
      (Nat.and_assoc _ _ _).symm
  _ = (2 ^ 32 - 2 ^ (32 - (p + 1))) &&& (2 ^ 32 - 2 ^ (32 - p)) := by rw [h]
  _ = 2 ^ 32 - 2 ^ (32 - p) := hch

theorem contV_mono_down (mn : Nat) : ∀ p, p ≤ 32 → ContV mn p → ∀ q, q ≤ p → ContV mn q := by
  intro p
  induction p with
  | zero =>
    intro _ h q hq
    have : q = 0 := by omega
    subst this
    exact h
  | succ p2 ih =>
    intro hp2 h q hq
    by_cases hqe : q = p2 + 1
    · subst hqe
      exact h
    · exact ih (by omega) (contV_down mn p2 (by omega) h) q (by omega)

theorem cidrScan_run (mn : Nat) (hmn : mn ≤ 4294967295) (g : Nat)
    (hg32 : g ≤ 32) (hgc : ContV mn g) (hgmax : ∀ q, g < q → q ≤ 32 → ¬ ContV mn q) :
    ∀ fuel ps, ps + fuel = 32 → ps ≤ g →
      cidrScan mn (2 ^ 32 - 2 ^ (32 - ps)) ps fuel = g := by
  intro fuel
  induction fuel with
  | zero =>
    intro ps hps hpg
    have h32 : ps = 32 := by omega
    subst h32
    show (32 : Nat) = g
    omega
  | succ f ih =>
    intro ps hps hpg
    have hlt : ps < 32 := by omega
    unfold cidrScan
    rw [if_pos hlt]
    have hsh : (1 : Nat) <<< (32 - (ps + 1)) = 2 ^ (31 - ps) := by
      rw [Nat.shiftLeft_eq, one_mul]
      congr 1
      omega
    have hnp : (2 ^ 32 - 2 ^ (32 - ps) + 1 <<< (32 - (ps + 1))) % 4294967296
        = 2 ^ 32 - 2 ^ (32 - (ps + 1)) := by
      rw [hsh]
      have hv := pmask_succ_val ⟨ps, hlt⟩
      simp only at hv
      rw [hv]
      have h31 : 31 - ps = 32 - (ps + 1) := by omega
      rw [h31]
      apply Nat.mod_eq_of_lt
      have : (2 : Nat) ^ (32 - (ps + 1)) ≤ 2 ^ 32 := Nat.pow_le_pow_right (by norm_num) (by omega)
      have h1 : (1 : Nat) ≤ 2 ^ (32 - (ps + 1)) := Nat.one_le_two_pow
      have h2 := two_pow_32_eq
      omega
    rw [hnp]
    have hmmod : mn % 4294967296 = mn := Nat.mod_eq_of_lt (by omega)
    rw [hmmod]
    show (if mn &&& (2 ^ 32 - 2 ^ (32 - (ps + 1))) = 2 ^ 32 - 2 ^ (32 - (ps + 1)) then
      cidrScan mn (2 ^ 32 - 2 ^ (32 - (ps + 1))) (ps + 1) f else ps) = g
    by_cases hcase : ps < g
    · have hcont : mn &&& (2 ^ 32 - 2 ^ (32 - (ps + 1))) = 2 ^ 32 - 2 ^ (32 - (ps + 1)) :=
        contV_mono_down mn g hg32 hgc (ps + 1) (by omega)
      rw [if_pos hcont]
      exact ih (ps + 1) (by omega) (by omega)
    · have hpg2 : ps = g := by omega
      have hnc : ¬ mn &&& (2 ^ 32 - 2 ^ (32 - (ps + 1))) = 2 ^ 32 - 2 ^ (32 - (ps + 1)) := by
        rw [hpg2]
        exact hgmax (g + 1) (by omega) (by omega)
      rw [if_neg hnc]
      omega

theorem getOptimalSearchCount_le (x e : Nat) : ∀ ps, getOptimalSearchCount x e ps ≤ ps + 1 := by
  intro ps
  induction ps with
  | zero => exact le_refl 1
  | succ q ih =>
    unfold getOptimalSearchCount
    cases hgm : getMaskRange x ((q + 1 : Nat) : Int) with
    | none =>
      show (1 : Nat) ≤ q + 1 + 1
      omega
    | some r =>
      show (if r.ipLow = x ∧ r.ipHigh ≤ e then 1 + getOptimalSearchCount x e q else 1) ≤ q + 1 + 1
      by_cases hcond : r.ipLow = x ∧ r.ipHigh ≤ e
      · rw [if_pos hcond]
        omega
      · rw [if_neg hcond]
        omega

theorem splitDots_ne_nil : ∀ s : Str, splitDots s ≠ [] := by
  intro s
  cases s with
  | nil => simp [splitDots]
  | cons c rest =>
    unfold splitDots
    by_cases hc : c = '.'
    · rw [if_pos hc]
      simp
    · rw [if_neg hc]
      cases splitDots rest <;> simp

theorem splitDots_no_dot : ∀ s : Str, '.' ∉ s → splitDots s = [s] := by
  intro s
  induction s with
  | nil => intro _; rfl
  | cons c rest ih =>
    intro hnd
    have hc : c ≠ '.' := fun h => hnd (by rw [h]; exact List.mem_cons_self _ _)
    have hrest : '.' ∉ rest := fun h => hnd (List.mem_cons_of_mem _ h)
    unfold splitDots
    rw [if_neg hc, ih hrest]

theorem splitDots_append : ∀ xs ys : Str, '.' ∉ xs →
    splitDots (xs ++ '.' :: ys) = xs :: splitDots ys := by
  intro xs
  induction xs with
  | nil =>
    intro ys _
    show splitDots ('.' :: ys) = [] :: splitDots ys
    rw [splitDots]
    rw [if_pos rfl]
  | cons c rest ih =>
    intro ys hnd
    have hc : c ≠ '.' := fun h => hnd (by rw [h]; exact List.mem_cons_self _ _)
    have hrest : '.' ∉ rest := fun h => hnd (List.mem_cons_of_mem _ h)
    show splitDots (c :: (rest ++ '.' :: ys)) = (c :: rest) :: splitDots ys
    rw [splitDots]
    rw [if_neg hc, ih ys hrest]

theorem canonicalIp_split (a b c d : Nat) (ha : a ≤ 255) (hb : b ≤ 255) (hc : c ≤ 255)
    (hd : d ≤ 255) :
    splitDots (canonicalIp a b c d) = [decChars3 a, decChars3 b, decChars3 c, decChars3 d] := by
  have hfa := octet_facts ⟨a, by omega⟩
  have hfb := octet_facts ⟨b, by omega⟩
  have hfc := octet_facts ⟨c, by omega⟩
  have hfd := octet_facts ⟨d, by omega⟩
  simp only at hfa hfb hfc hfd
  unfold canonicalIp
  rw [splitDots_append _ _ hfa.1, splitDots_append _ _ hfb.1, splitDots_append _ _ hfc.1,
    splitDots_no_dot _ hfd.1]

theorem canonicalIp_isIp (a b c d : Nat) (ha : a ≤ 255) (hb : b ≤ 255) (hc : c ≤ 255)
    (hd : d ≤ 255) : isIp (canonicalIp a b c d) = true := by
  have hfa := octet_facts ⟨a, by omega⟩
  have hfb := octet_facts ⟨b, by omega⟩
  have hfc := octet_facts ⟨c, by omega⟩
  have hfd := octet_facts ⟨d, by omega⟩
  simp only at hfa hfb hfc hfd
  unfold isIp
  rw [canonicalIp_split a b c d ha hb hc hd]
  simp [hfa.2.1, hfb.2.1, hfc.2.1, hfd.2.1]

theorem canonicalIp_toDecimal (a b c d : Nat) (ha : a ≤ 255) (hb : b ≤ 255) (hc : c ≤ 255)
    (hd : d ≤ 255) :
    toDecimal (.str (canonicalIp a b c d))
      = some (((a * 256 + b) * 256 + c) * 256 + d) := by
  have hfa := octet_facts ⟨a, by omega⟩
  have hfb := octet_facts ⟨b, by omega⟩
  have hfc := octet_facts ⟨c, by omega⟩
  have hfd := octet_facts ⟨d, by omega⟩
  simp only at hfa hfb hfc hfd
  simp only [toDecimal]
  rw [if_pos (canonicalIp_isIp a b c d ha hb hc hd), canonicalIp_split a b c d ha hb hc hd]
  show some (((parseOctet (decChars3 a) * 256 + parseOctet (decChars3 b)) * 256
    + parseOctet (decChars3 c)) * 256 + parseOctet (decChars3 d))
    = some (((a * 256 + b) * 256 + c) * 256 + d)
  rw [hfa.2.2, hfb.2.2, hfc.2.2, hfd.2.2]

theorem canonicalIp_toString (a b c d : Nat) (ha : a ≤ 255) (hb : b ≤ 255) (hc : c ≤ 255)
    (hd : d ≤ 255) :
    toString (((a * 256 + b) * 256 + c) * 256 + d) = some (canonicalIp a b c d) := by
  set v := ((a * 256 + b) * 256 + c) * 256 + d with hv
  have hvle : v ≤ 4294967295 := by omega
  have h0 : v % 256 = d := by omega
  have h1 : v / 256 % 256 = c := by omega
  have h2 : v / 256 / 256 % 256 = b := by omega
  have h3 : v / 256 / 256 / 256 % 256 = a := by omega
  unfold toString
  rw [if_pos (by unfold isDecimalIp; exact decide_eq_true hvle)]
  simp only []
  rw [h0, h1, h2, h3]
  rfl

theorem calculate_num (a b : Nat) (ha : a ≤ 4294967295) (hb : b ≤ 4294967295) (hab : a ≤ b) :
    calculate (.num a) (.num b) = calcLoop b a (b + 2 - a) := by
  unfold calculate
  simp only [toDecimal]
  rw [if_pos (show isDecimalIp a = true from decide_eq_true ha),
    if_pos (show isDecimalIp b = true from decide_eq_true hb)]
  show (if b < a then none else calcLoop b a (b + 2 - a)) = calcLoop b a (b + 2 - a)
  rw [if_neg (by omega)]

theorem blockFits_iff (x e p : Nat) (hx : x ≤ 4294967295) (hp : p ≤ 32) :
    BlockFits x e p ↔ CondP x e p := by
  obtain ⟨r, hr, _⟩ := getMaskRange_some x p hx hp
  constructor
  · rintro ⟨r2, hr2, h1, h2⟩
    rw [hr] at hr2
    injection hr2 with hrr
    subst hrr
    exact (cond_iff x e p hx hp _ hr).mp ⟨h1, h2⟩
  · intro hcp
    exact ⟨r, hr, (cond_iff x e p hx hp r hr).mpr hcp⟩

/-- C1: for every pair of valid addresses `start ≤ end`, `calculate` returns a
non-empty list of blocks that is contiguous (each block's low is the previous
block's high plus one), non-overlapping and ordered ascending, and whose
union is exactly the inclusive range `[start, end]`. -/
theorem claim_c1 (a b : Nat) (hab : a ≤ b) (hb : b ≤ 4294967295) :
    ∃ l, calculate (.num a) (.num b) = some l ∧ l ≠ [] ∧
      List.Chain' (fun r s => s.ipLow = r.ipHigh + 1) l ∧
      List.Pairwise (fun r s => r.ipHigh < s.ipLow) l ∧
      (∀ y, (a ≤ y ∧ y ≤ b) ↔ ∃ r ∈ l, r.ipLow ≤ y ∧ y ≤ r.ipHigh) := by
  have ha : a ≤ 4294967295 := le_trans hab hb
  obtain ⟨l, hl, hch⟩ := calcLoop_spec b hb (b + 2 - a) a (by omega) (by omega)
  refine ⟨l, ?_, chainFrom_ne_nil b l a hch hab, chainFrom_chain b l a hch,
    chainFrom_pairwise b l a hch, chainFrom_union b l a hch⟩
  rw [calculate_num a b ha hb hab, hl]

/-- Witness for C1 at the concrete range `[0, 1]`. -/
theorem claim_c1_witness :
    (0 : Nat) ≤ 1 ∧ (1 : Nat) ≤ 4294967295 ∧
    (∃ l, calculate (.num 0) (.num 1) = some l ∧ l ≠ [] ∧
      List.Chain' (fun r s => s.ipLow = r.ipHigh + 1) l ∧
      List.Pairwise (fun r s => r.ipHigh < s.ipLow) l ∧
      (∀ y, ((0 : Nat) ≤ y ∧ y ≤ 1) ↔ ∃ r ∈ l, r.ipLow ≤ y ∧ y ≤ r.ipHigh)) :=
  ⟨by decide, by decide, claim_c1 0 1 (by decide) (by decide)⟩

/-- C2: for every cursor and end with `cursor ≤ end`, the block found by
`getOptimalRange` is the one with the smallest `prefixSize` among all
prefix sizes in `[0, 32]` whose `getMaskRange` block starts exactly at the
cursor and ends no later than `end`. -/
theorem claim_c2 (x e : Nat) (hxe : x ≤ e) (he : e ≤ 4294967295) :
    ∃ p : Nat, p ≤ 32 ∧ getOptimalRange x e = getMaskRange x (p : Int) ∧ BlockFits x e p ∧
      ∀ q, q ≤ 32 → BlockFits x e q → p ≤ q := by
  have hx : x ≤ 4294967295 := le_trans hxe he
  obtain ⟨m, hm32, hfit, hmin, heq⟩ := getOptimalRange_eq x e hxe he
  refine ⟨m, hm32, heq, (blockFits_iff x e m hx hm32).mpr hfit, ?_⟩
  intro q hq32 hfq
  by_contra hlt
  push_neg at hlt
  exact hmin q hlt ((blockFits_iff x e q hx hq32).mp hfq)

/-- Witness for C2 at the concrete pair `(3, 7)`. -/
theorem claim_c2_witness :
    (3 : Nat) ≤ 7 ∧ (7 : Nat) ≤ 4294967295 ∧
    (∃ p : Nat, p ≤ 32 ∧ getOptimalRange 3 7 = getMaskRange 3 (p : Int) ∧ BlockFits 3 7 p ∧
      ∀ q, q ≤ 32 → BlockFits 3 7 q → p ≤ q) :=
  ⟨by decide, by decide, claim_c2 3 7 (by decide) (by decide)⟩

/-- C3: `calculate` terminates with a result for every valid `start ≤ end`,
including `end = 0xFFFFFFFF` (the cursor advances in the unbounded integer
domain of JS numbers, so `block.high + 1` exceeds `end` instead of wrapping
to 0), and `calculate("0.0.0.0", "255.255.255.255")` is exactly one block
with prefix size 0 covering the whole address space. -/
theorem claim_c3 :
    (∀ a b : Nat, a ≤ b → b ≤ 4294967295 → (calculate (.num a) (.num b)).isSome = true) ∧
    (calculate (.str ("0.0.0.0".toList)) (.str ("255.255.255.255".toList))).map
      (List.map fun r => (r.ipLow, r.ipHigh, r.prefixSize)) = some [(0, 4294967295, 0)] := by
  constructor
  · intro a b hab hb
    have ha : a ≤ 4294967295 := le_trans hab hb
    obtain ⟨l, hl, _⟩ := calcLoop_spec b hb (b + 2 - a) a (by omega) (by omega)
    rw [calculate_num a b ha hb hab, hl]
    rfl
  · rfl

/-- Witness for C3's universal part at the concrete range `[0, 1]`. -/
theorem claim_c3_witness :
    (0 : Nat) ≤ 1 ∧ (1 : Nat) ≤ 4294967295 ∧
      (calculate (.num 0) (.num 1)).isSome = true :=
  ⟨by decide, by decide, claim_c3.1 0 1 (by decide) (by decide)⟩

/-- C4 counterexample: `"001.002.003.004"` is accepted by `isIp`, but
converting it to an integer and back renders `"1.2.3.4"`, so the string
round-trip fails on it. -/
theorem claim_c4_counterexample :
    isIp ("001.002.003.004".toList) = true ∧
    ¬ ((toDecimal (.str ("001.002.003.004".toList))).bind toString
        = some ("001.002.003.004".toList)) := by
  decide

/-- C4 as amended: the round-trip `toString (toDecimal s) = s` holds for
every valid dotted-decimal string in canonical form, i.e. whose four octets
carry no leading zeros (the rendering `canonicalIp` of any octet values). -/
theorem claim_c4_amended (a b c d : Nat) (ha : a ≤ 255) (hb : b ≤ 255) (hc : c ≤ 255)
    (hd : d ≤ 255) :
    isIp (canonicalIp a b c d) = true ∧
    (toDecimal (.str (canonicalIp a b c d))).bind toString = some (canonicalIp a b c d) := by
  refine ⟨canonicalIp_isIp a b c d ha hb hc hd, ?_⟩
  rw [canonicalIp_toDecimal a b c d ha hb hc hd]
  show toString (((a * 256 + b) * 256 + c) * 256 + d) = some (canonicalIp a b c d)
  exact canonicalIp_toString a b c d ha hb hc hd

/-- Witness for the amended C4 at the octets of `"10.0.0.45"`. -/
theorem claim_c4_witness :
    (10 : Nat) ≤ 255 ∧ (0 : Nat) ≤ 255 ∧ (45 : Nat) ≤ 255 ∧
    (isIp (canonicalIp 10 0 0 45) = true ∧
      (toDecimal (.str (canonicalIp 10 0 0 45))).bind toString
        = some (canonicalIp 10 0 0 45)) :=
  ⟨by decide, by decide, by decide,
    claim_c4_amended 10 0 0 45 (by decide) (by decide) (by decide) (by decide)⟩

/-- C5 counterexample: decomposing the range `[1, 4294967294]`
(`0.0.0.1`–`255.255.255.254`) yields 62 blocks, which exceeds the claimed
bound of 32. -/
theorem claim_c5_counterexample :
    (calculate (.num 1) (.num 4294967294)).map List.length = some 62 ∧ ¬ (62 : Nat) ≤ 32 :=
  ⟨by rfl, by decide⟩

/-- C5 as amended: for every valid `start ≤ end` the decomposition yields at
most 63 blocks (62 is attained), and each block search examines at most 33
candidate prefix sizes (32 down to 0). -/
theorem claim_c5_amended (a b : Nat) (hab : a ≤ b) (hb : b ≤ 4294967295) :
    ∃ l, calculate (.num a) (.num b) = some l ∧ l.length ≤ 63 ∧
      ∀ x e : Nat, getOptimalSearchCount x e 32 ≤ 33 := by
  have ha : a ≤ 4294967295 := le_trans hab hb
  obtain ⟨l, hl, _⟩ := calcLoop_spec b hb (b + 2 - a) a (by omega) (by omega)
  refine ⟨l, by rw [calculate_num a b ha hb hab, hl], ?_,
    fun x e => getOptimalSearchCount_le x e 32⟩
  have hlen := calcLoop_len b hb (b + 1 - a) a (b + 2 - a) l hab rfl hl
  have hL32 : logB (b + 1 - a) ≤ 32 := logB_le32 _
  have hv32 : valB a ≤ 32 := valB_le a
  by_cases hcase : logB (b + 1 - a) ≤ 31
  · omega
  · have hL : logB (b + 1 - a) = 32 := by omega
    have hge : (2 : Nat) ^ 32 ≤ b + 1 - a := by
      have h1 := logB_le (b + 1 - a) (by omega)
      rw [hL] at h1
      exact h1
    have hpw := two_pow_32_eq
    have ha0 : a = 0 := by omega
    subst ha0
    have hv0 : (32 : Nat) ≤ valB 0 := le_valB 0 32 le_rfl (dvd_zero _)
    omega

/-- Witness for the amended C5 at the concrete range `[0, 1]`. -/
theorem claim_c5_amended_witness :
    (0 : Nat) ≤ 1 ∧ (1 : Nat) ≤ 4294967295 ∧
    (∃ l, calculate (.num 0) (.num 1) = some l ∧ l.length ≤ 63 ∧
      ∀ x e : Nat, getOptimalSearchCount x e 32 ≤ 33) :=
  ⟨by decide, by decide, claim_c5_amended 0 1 (by decide) (by decide)⟩

/-- C6: for every address and prefix size in range, the block returned by
`getMaskRange` satisfies the descriptor invariants: `ipLow ≤ ipHigh`, the
block size is `2 ^ (32 - prefixSize)`, `ipLow` is aligned to the prefix
mask, and the prefix and inverted masks partition the 32-bit word. -/
theorem claim_c6 (x p : Nat) (hx : x ≤ 4294967295) (hp : p ≤ 32) :
    ∃ r, getMaskRange x (p : Int) = some r ∧
      r.ipLow ≤ r.ipHigh ∧
      r.ipHigh - r.ipLow + 1 = 2 ^ (32 - p) ∧
      r.ipLow &&& r.prefixMask = r.ipLow ∧
      r.prefixMask ||| r.invertedMask = 4294967295 ∧
      r.prefixMask &&& r.invertedMask = 0 := by
  obtain ⟨r, hr, hlow, hhigh, hpm, hinv, _⟩ := getMaskRange_some x p hx hp
  have hcompl := masks_compl_fin ⟨p, by omega⟩
  simp only at hcompl
  have hkpos : (1 : Nat) ≤ 2 ^ (32 - p) := Nat.one_le_two_pow
  have hmodle : x % 2 ^ (32 - p) ≤ x := Nat.mod_le x _
  refine ⟨r, hr, ?_, ?_, ?_, ?_, ?_⟩
  · rw [hlow, hhigh]
    omega
  · rw [hlow, hhigh]
    omega
  · rw [hlow, hpm]
    have hy : x - x % 2 ^ (32 - p) < 2 ^ 32 := by
      have := two_pow_32_eq
      omega
    rw [land_high_eq (x - x % 2 ^ (32 - p)) (32 - p) hy (by omega)]
    have hdvd : 2 ^ (32 - p) ∣ x - x % 2 ^ (32 - p) := by
      have h1 := Nat.mod_add_div' x (2 ^ (32 - p))
      have h2 := Nat.mod_add_div x (2 ^ (32 - p))
      refine ⟨x / 2 ^ (32 - p), ?_⟩
      omega
    rw [Nat.mod_eq_zero_of_dvd hdvd]
    omega
  · rw [hpm, hinv]
    exact hcompl.1
  · rw [hpm, hinv]
    exact hcompl.2

/-- Witness for C6 at address 5 and prefix size 24. -/
theorem claim_c6_witness :
    (5 : Nat) ≤ 4294967295 ∧ (24 : Nat) ≤ 32 ∧
    (∃ r, getMaskRange 5 ((24 : Nat) : Int) = some r ∧
      r.ipLow ≤ r.ipHigh ∧
      r.ipHigh - r.ipLow + 1 = 2 ^ (32 - 24) ∧
      r.ipLow &&& r.prefixMask = r.ipLow ∧
      r.prefixMask ||| r.invertedMask = 4294967295 ∧
      r.prefixMask &&& r.invertedMask = 0) :=
  ⟨by decide, by decide, claim_c6 5 24 (by decide) (by decide)⟩

/-- C7: `calculateSubnetMask` fails (throws, modelled as `none`) whenever
the prefix size lies outside `[0, 32]`, for every valid address input: the
out-of-range mask value makes the internal `toString` call throw. -/
theorem claim_c7 (ip : IpVal) (p : Int) (hip : (toDecimal ip).isSome = true)
    (hp : p < 0 ∨ 32 < p) : calculateSubnetMask ip p = none := by
  unfold calculateSubnetMask
  obtain ⟨n, hn⟩ : ∃ n, toDecimal ip = some n := Option.isSome_iff_exists.mp hip
  rw [hn]
  rcases hp with h | h
  · exact getMaskRange_none_lo n p h
  · exact getMaskRange_none_hi n p h

/-- Witness for C7 at address 5 and prefix sizes 33 and -1. -/
theorem claim_c7_witness :
    (toDecimal (.num 5)).isSome = true ∧
    calculateSubnetMask (.num 5) 33 = none ∧
    calculateSubnetMask (.num 5) (-1) = none :=
  ⟨by decide, claim_c7 (.num 5) 33 (by decide) (Or.inr (by decide)),
    claim_c7 (.num 5) (-1) (by decide) (Or.inl (by decide))⟩

/-- C8: for every valid address and every 32-bit mask value, including
non-contiguous ones, `calculateCIDRPrefix` succeeds, and the inferred
prefix size is the largest `p ≤ 32` with `(mask &&& prefixMask p) =
prefixMask p`, the length of the leading run of one bits; lower bits are
never checked. -/
theorem claim_c8 (x mn : Nat) (hx : x ≤ 4294967295) (hmn : mn ≤ 4294967295) :
    ∃ r, calculateCIDRPrefix (.num x) (.num mn) = some r ∧
      ∃ p : Nat, p ≤ 32 ∧ r.prefixSize = (p : Int) ∧
        mn &&& getPrefixMask (p : Int) = getPrefixMask (p : Int) ∧
        ∀ q : Nat, q ≤ 32 → mn &&& getPrefixMask (q : Int) = getPrefixMask (q : Int) →
          q ≤ p := by
  set g := Nat.findGreatest (fun p => ContV mn p) 32 with hgdef
  have hg32 : g ≤ 32 := Nat.findGreatest_le 32
  have hgc : ContV mn g :=
    Nat.findGreatest_spec (P := fun p => ContV mn p) (m := 0) (by omega) (contV_zero mn)
  have hgmax : ∀ q, g < q → q ≤ 32 → ¬ ContV mn q := fun q h1 h2 =>
    Nat.findGreatest_is_greatest (P := fun p => ContV mn p) h1 h2
  have hrun := cidrScan_run mn hmn g hg32 hgc hgmax 32 0 rfl (Nat.zero_le g)
  have h0 : (2 : Nat) ^ 32 - 2 ^ (32 - 0) = 0 := by norm_num
  rw [h0] at hrun
  obtain ⟨r, hr, _, _, _, _, hps, _⟩ := getMaskRange_some x g hx hg32
  refine ⟨r, ?_, g, hg32, hps, ?_, ?_⟩
  · unfold calculateCIDRPrefix
    simp only [toDecimal]
    rw [if_pos (show isDecimalIp x = true from decide_eq_true hx),
      if_pos (show isDecimalIp mn = true from decide_eq_true hmn)]
    show getMaskRange x ((cidrScan mn 0 0 32 : Nat) : Int) = some r
    rw [hrun]
    exact hr
  · rw [getPrefixMask_le32 g hg32]
    exact hgc
  · intro q hq32 hcq
    rw [getPrefixMask_le32 q hq32] at hcq
    by_contra hlt
    push_neg at hlt
    exact hgmax q hlt hq32 hcq

/-- Witness for C8 at address 5 and mask `255.255.0.0`. -/
theorem claim_c8_witness :
    (5 : Nat) ≤ 4294967295 ∧ (4294901760 : Nat) ≤ 4294967295 ∧
    (∃ r, calculateCIDRPrefix (.num 5) (.num 4294901760) = some r ∧
      ∃ p : Nat, p ≤ 32 ∧ r.prefixSize = (p : Int) ∧
        (4294901760 : Nat) &&& getPrefixMask (p : Int) = getPrefixMask (p : Int) ∧
        ∀ q : Nat, q ≤ 32 →
          (4294901760 : Nat) &&& getPrefixMask (q : Int) = getPrefixMask (q : Int) →
          q ≤ p) :=
  ⟨by decide, by decide, claim_c8 5 4294901760 (by decide) (by decide)⟩

/-- C9: for valid ordered inputs the prefix-size-32 candidate always fits,
so `getOptimalRange` never returns `null` and the defensive null branch in
`calculate` is unreachable. -/
theorem claim_c9 (x e : Nat) (hxe : x ≤ e) (he : e ≤ 4294967295) :
    BlockFits x e 32 ∧ getOptimalRange x e ≠ none := by
  have hx : x ≤ 4294967295 := le_trans hxe he
  refine ⟨(blockFits_iff x e 32 hx le_rfl).mpr (condP_32 x e hxe), ?_⟩
  obtain ⟨m, hm32, _, _, heq⟩ := getOptimalRange_eq x e hxe he
  obtain ⟨r, hr, _⟩ := getMaskRange_some x m hx hm32
  rw [heq, hr]
  simp

/-- Witness for C9 at the concrete pair `(3, 7)`. -/
theorem claim_c9_witness :
    (3 : Nat) ≤ 7 ∧ (7 : Nat) ≤ 4294967295 ∧
      (BlockFits 3 7 32 ∧ getOptimalRange 3 7 ≠ none) :=
  ⟨by decide, by decide, claim_c9 3 7 (by decide) (by decide)⟩

/-- C10: `isIp` accepts octets with leading zeros: `"001.002.003.004"` is
valid, maps to the same integer as `"1.2.3.4"`, and its rendering after
conversion differs from the original input. -/
theorem claim_c10 :
    isIp ("001.002.003.004".toList) = true ∧
    toDecimal (.str ("001.002.003.004".toList)) = toDecimal (.str ("1.2.3.4".toList)) ∧
    (toDecimal (.str ("001.002.003.004".toList))).bind toString = some ("1.2.3.4".toList) ∧
    ("1.2.3.4".toList) ≠ ("001.002.003.004".toList) := by
  decide

end IpSubnetCalculator
